import Mathlib

/-!
Verification of the context-propagation and record-enrichment engine of
`nivacloud_logging` (file `nivacloud_logging/log_utils.py`), as a shallow
embedding in Lean 4.

The embedding follows the Python source closely:

* `PyVal` models Python values stored on the thread-local context object
  `LogContext.__context`; `PyVal.none` models Python `None`, which the source
  uses both as a value and as the `getattr` default in
  `LogContext._enter_context`.
* `Store` models the attribute dictionary of one `threading.local()` view:
  a key mapped to `Option.none` means the attribute is absent
  (`hasattr` is false), while `some PyVal.none` means the attribute is
  present and bound to Python `None`.
* `Prog`/`run` model well-bracketed `with LogContext(...)` blocks, including
  bodies that raise, since `__exit__` runs `_exit_context` unconditionally.
-/

/-- Python values held in the logging context. `PyVal.none` is Python `None`. -/
inductive PyVal where
  | none
  | vint (n : Int)
  | vstr (s : String)
  deriving DecidableEq

/-- Attribute map of the `threading.local()` object `LogContext.__context`
for a single thread: `Option.none` means the attribute is absent. -/
def Store : Type := String → Option PyVal

/-- A `threading.local()` view with no attributes set. -/
def Store.empty : Store := fun _ => Option.none

/-- Python `setattr(cls.__context, k, v)`. -/
def Store.setattr (st : Store) (k : String) (v : PyVal) : Store :=
  fun k2 => if k2 = k then some v else st k2

/-- Python `delattr(cls.__context, k)` on the store; the `AttributeError`
raised when the attribute is absent is handled by the caller (`_exit_context`). -/
def Store.delattr (st : Store) (k : String) : Store :=
  fun k2 => if k2 = k then Option.none else st k2

/-- Python `getattr(cls.__context, k, None)` as used by `_enter_context`:
an absent attribute and an attribute bound to `None` both yield `None`. -/
def Store.getattrD (st : Store) (k : String) : PyVal :=
  (st k).getD PyVal.none

/-- Association-list lookup, for the `context_values` keyword dictionary. -/
def plookup {α : Type} (k : String) : List (String × α) → Option α
  | [] => Option.none
  | (k0, v) :: rest => if k = k0 then some v else plookup k rest

/-- Key list of an association list. -/
def pkeys {α : Type} (l : List (String × α)) : List String :=
  l.map Prod.fst

/-- Boolean check that the keys of an association list are pairwise distinct,
as the keys of a Python `dict` (such as `**context_values`) always are. -/
def nodupKeys {α : Type} : List (String × α) → Bool
  | [] => true
  | (k, _) :: rest => !(rest.any fun kv => decide (kv.1 = k)) && nodupKeys rest

/-- Python `LogContext._enter_context`: for each `(ctx_key, ctx_value)` pair it
records `previous_values[ctx_key] = getattr(self.__context, ctx_key, None)` and
then performs `setattr(self.__context, ctx_key, ctx_value)`. Returns the
updated store together with the recorded `previous_values` (in key order). -/
def _enter_context : List (String × PyVal) → Store → Store × List (String × PyVal)
  | [], st => (st, [])
  | (k, v) :: rest, st =>
    let st1 := st.setattr k v
    let res := _enter_context rest st1
    (res.1, (k, st.getattrD k) :: res.2)

/-- Exceptions that can flow out of a `with LogContext(...)` block. -/
inductive Exc where
  | appExc   -- an exception raised by the body of the with-block
  | attrErr  -- AttributeError raised by delattr inside _exit_context
  deriving DecidableEq

/-- Python `LogContext._exit_context`: for each ctx key, if the recorded
previous value `is None` it runs `delattr` (which raises `AttributeError`
when the attribute is absent, aborting the loop), otherwise `setattr`. -/
def _exit_context : List (String × PyVal) → Store → Store × Option Exc
  | [], st => (st, Option.none)
  | (k, p) :: rest, st =>
    if p = PyVal.none then
      match st k with
      | some _ => _exit_context rest (st.delattr k)
      | Option.none => (st, some Exc.attrErr)
    else
      _exit_context rest (st.setattr k p)

/-- Well-bracketed programs over the log context: `scope bs body` is
`with LogContext(**bs): body`; `raiseE` is a body statement that raises. -/
inductive Prog where
  | skip
  | raiseE
  | seq (p q : Prog)
  | scope (bs : List (String × PyVal)) (body : Prog)

/-- Execution of a program. A `with` block runs `__enter__` then the body and
then always runs `__exit__` (hence `_exit_context`), whether or not the body
raised; an exception raised by `_exit_context` itself replaces the pending
body exception, exactly as in Python. -/
def run : Prog → Store → Store × Option Exc
  | Prog.skip, st => (st, Option.none)
  | Prog.raiseE, st => (st, some Exc.appExc)
  | Prog.seq p q, st =>
    match run p st with
    | (st1, Option.none) => run q st1
    | (st1, some e) => (st1, some e)
  | Prog.scope bs body, st =>
    let en := _enter_context bs st
    let bo := run body en.1
    let ex := _exit_context en.2 bo.1
    (ex.1, ex.2.orElse fun _ => bo.2)

/-- Structural well-formedness: every scope's binding list has distinct keys,
as Python keyword-argument dictionaries always do. -/
def progWF : Prog → Bool
  | Prog.skip => true
  | Prog.raiseE => true
  | Prog.seq p q => progWF p && progWF q
  | Prog.scope bs body => nodupKeys bs && progWF body

/-- No scope anywhere in the program binds a key to the value `None`. -/
def progNoNone : Prog → Bool
  | Prog.skip => true
  | Prog.raiseE => true
  | Prog.seq p q => progNoNone p && progNoNone q
  | Prog.scope bs body => bs.all (fun kv => !(decide (kv.2 = PyVal.none))) && progNoNone body

/-- The process-wide `LogContext.__default_context` dictionary, as a map. -/
def Defaults : Type := String → Option PyVal

/-- An empty default context, as produced by `LogContext.reset_defaults`. -/
def Defaults.empty : Defaults := fun _ => Option.none

/-- Python `LogContext.set_default(key, value)`. -/
def set_default (d : Defaults) (k : String) (v : PyVal) : Defaults :=
  fun k2 => if k2 = k then some v else d k2

/-- Python `LogContext.getcontext()`: the merge
`\x7b**cls.__default_context, **cls.__context.__dict__\x7d`, in which a
thread-local binding wins over the default for the same key. The keyed form
`getcontext(key)` is `cls.__context.__dict__.get(key, cls.__default_context.get(key))`,
which agrees with this merge applied to `key`. -/
def getcontext (st : Store) (d : Defaults) : String → Option PyVal :=
  fun k => (st k).orElse fun _ => d k

/-- ASCII case of Python `str.lower` for one character. -/
def lowerChar (c : Char) : Char :=
  if 65 ≤ c.toNat ∧ c.toNat ≤ 90 then Char.ofNat (c.toNat + 32) else c

/-- Python `str.lower()`, restricted to its ASCII behavior (the recognized
configuration tokens are all ASCII). -/
def pyLower (s : String) : String :=
  String.mk (s.data.map lowerChar)

/-- The plaintext-mode resolution in `setup_logging` when `plaintext is None`:
Python `os.getenv("NIVACLOUD_PLAINTEXT_LOGS", "").lower() not in ("", "0", "false", "f")`.
`env` is the raw value of the environment variable, `Option.none` when unset. -/
def plaintext_from_env (env : Option String) : Bool :=
  !((["", "0", "false", "f"] : List String).contains (pyLower (env.getD "")))

/-- Restates the SPEC sentence (not the code) for comparison: plaintext is
claimed to be selected exactly when the value is one of the truthy tokens
`1`, `true`, `t`, case-insensitively. -/
def plaintext_spec_truthy (env : Option String) : Bool :=
  (["1", "true", "t"] : List String).contains (pyLower (env.getD ""))

/-- A handler installed on the root logger. `marker` is an instance of the
module-private marker class `_LogContextHandler` (the only kind of sink
`setup_logging` installs); `other` is any unrelated handler. The numeric id
distinguishes handler objects. -/
inductive Handler where
  | marker (id : Nat)
  | other (id : Nat)
  deriving DecidableEq

/-- Python `isinstance(handler, _LogContextHandler)`. -/
def isLogContextHandler : Handler → Bool
  | Handler.marker _ => true
  | Handler.other _ => false

/-- The sweep `for handler in root_logger.handlers: if isinstance(handler,
_LogContextHandler): root_logger.removeHandler(handler)` from
`_remove_existing_stream_handlers`, with Python's iterator semantics over the
list being mutated in place: the iterator index advances after every step, so
after removing the element at index `i` the old element `i+1` is skipped. -/
def removeLoop (hs : List Handler) (i : Nat) : List Handler :=
  if h : i < hs.length then
    if isLogContextHandler (hs.get ⟨i, h⟩) then removeLoop (hs.eraseIdx i) (i + 1)
    else removeLoop hs (i + 1)
  else hs
termination_by hs.length - i
decreasing_by
  · simp only [List.length_eraseIdx, h, if_pos]
    omega
  · omega

/-- Python `_remove_existing_stream_handlers` acting on the root logger's
handler list. -/
def _remove_existing_stream_handlers (hs : List Handler) : List Handler :=
  removeLoop hs 0

/-- The sink effect of one `setup_logging` call on the root logger's handler
list (identical in `_setup_structured_logging` and `_setup_plaintext_logging`):
remove previously installed marker-typed handlers, then `addHandler` exactly
one fresh marker-typed stream handler. -/
def setupSinks (hs : List Handler) (newId : Nat) : List Handler :=
  _remove_existing_stream_handlers hs ++ [Handler.marker newId]

/-- Structural restatement of the removal sweep, used for reasoning and for
computing witnesses: when an element is removed, the element that slides into
its index is skipped by the iterator. -/
def removeRec : List Handler → List Handler
  | [] => []
  | [x] => if isLogContextHandler x then [] else [x]
  | x :: y :: rest2 =>
    if isLogContextHandler x then y :: removeRec rest2
    else x :: removeRec (y :: rest2)

/-- Number of marker-typed (`_LogContextHandler`) sinks in a handler list;
each of them renders every log event once, so this is also the number of
rendered records per emitted event. -/
def countMarkers (hs : List Handler) : Nat :=
  hs.countP isLogContextHandler

/-- The two user signals handled by `_loglevel_signal_handler`. -/
inductive Sig where
  | sigusr1
  | sigusr2
  deriving DecidableEq

/-- The `usr_signals` table: `SIGUSR1` maps to `logging.INFO` (20) and
`SIGUSR2` to `logging.DEBUG` (10). -/
def usr_signals : Sig → Nat
  | Sig.sigusr1 => 20
  | Sig.sigusr2 => 10

/-- Disposition returned by `signal.getsignal` for a signal before
`_loglevel_signal_handler` installs its own handler. -/
inductive PrevHandler where
  | sigDfl            -- signal.SIG_DFL, the platform default
  | pyNone            -- Python None: no Python-level handler installed
  | custom (id : Nat) -- a previously installed Python handler
  deriving DecidableEq

/-- The `previous_handlers` dictionary of `_loglevel_signal_handler`: it keeps
the `signal.getsignal` result for each signal whose handler `!= signal.SIG_DFL`;
`.get` on a missing key yields `None`. -/
def previous_handlers (prev : Sig → PrevHandler) (s : Sig) : Option PrevHandler :=
  if prev s = PrevHandler.sigDfl then Option.none else some (prev s)

/-- Observable actions performed by `handle_usr_signal`, in program order. -/
inductive SigAction where
  | setLevel (logger : Nat) (level : Nat)  -- logger.setLevel(level)
  | callPrev (id : Nat)                    -- previous_handler(signalnum, _frame)
  deriving DecidableEq

/-- Python `handle_usr_signal(signalnum, _frame)`: first sets
`usr_signals[signalnum]` on every registered logger, then looks up the captured
previous handler for that signal and calls it when it is truthy (a `SIG_DFL`
disposition was never captured; a captured `None` disposition is falsy and is
not called). Loggers are identified by numeric ids. -/
def handle_usr_signal (prev : Sig → PrevHandler) (loggers : List Nat) (s : Sig) :
    List SigAction :=
  (loggers.map fun lg => SigAction.setLevel lg (usr_signals s)) ++
    (match previous_handlers prev s with
     | some (PrevHandler.custom i) => [SigAction.callPrev i]
     | _ => [])

/-- Thread-indexed view of `LogContext.__context = threading.local()`: each OS
worker thread (identified by a numeric id) sees its own attribute dictionary.
This captures the `threading.local` semantics exactly: state is keyed by the
executing worker thread, not by any logical task. -/
def TStore : Type := Nat → Store

/-- No thread has any attribute set. -/
def TStore.empty : TStore := fun _ => Store.empty

/-- `LogContext._enter_context` executed on worker thread `tid`: only that
thread's attribute dictionary changes. -/
def enterOn (tid : Nat) (bs : List (String × PyVal)) (ts : TStore) :
    TStore × List (String × PyVal) :=
  let res := _enter_context bs (ts tid)
  (fun t => if t = tid then res.1 else ts t, res.2)

/-- `LogContext._exit_context` executed on worker thread `tid`. -/
def exitOn (tid : Nat) (prev : List (String × PyVal)) (ts : TStore) :
    TStore × Option Exc :=
  let res := _exit_context prev (ts tid)
  (fun t => if t = tid then res.1 else ts t, res.2)

/-- `LogContext.getcontext()` executed on worker thread `tid`: the bindings of
that worker thread merged over the process-wide defaults. -/
def getcontextOn (tid : Nat) (ts : TStore) (d : Defaults) : String → Option PyVal :=
  getcontext (ts tid) d

/-- Two-digit zero-padded decimal field, as in `%02d`. -/
def pad2 (n : Nat) : String :=
  String.mk [Nat.digitChar (n / 10 % 10), Nat.digitChar (n % 10)]

/-- Four-digit zero-padded decimal field, as in `%04d`. -/
def pad4 (n : Nat) : String :=
  String.mk [Nat.digitChar (n / 1000 % 10), Nat.digitChar (n / 100 % 10),
    Nat.digitChar (n / 10 % 10), Nat.digitChar (n % 10)]

/-- Six-digit zero-padded decimal field, as in `%06d`. -/
def pad6 (n : Nat) : String :=
  String.mk [Nat.digitChar (n / 100000 % 10), Nat.digitChar (n / 10000 % 10),
    Nat.digitChar (n / 1000 % 10), Nat.digitChar (n / 100 % 10),
    Nat.digitChar (n / 10 % 10), Nat.digitChar (n % 10)]

/-- A `datetime.date`; `isoformat` renders `YYYY-MM-DD` as CPython does for
its valid field ranges. -/
structure PyDate where
  year : Nat
  month : Nat
  day : Nat
  deriving DecidableEq

/-- CPython `date.isoformat()`. -/
def PyDate.isoformat (d : PyDate) : String :=
  pad4 d.year ++ "-" ++ pad2 d.month ++ "-" ++ pad2 d.day

/-- A `datetime.time`; `isoformat()` appends fractional seconds only when the
microsecond field is non-zero, as CPython does by default. -/
structure PyTime where
  hour : Nat
  minute : Nat
  second : Nat
  microsecond : Nat
  deriving DecidableEq

/-- CPython `time.isoformat()`. -/
def PyTime.isoformat (t : PyTime) : String :=
  pad2 t.hour ++ ":" ++ pad2 t.minute ++ ":" ++ pad2 t.second ++
    (if t.microsecond = 0 then "" else "." ++ pad6 t.microsecond)

/-- A `datetime.datetime`, as its date and time parts; `isoformat()` joins
them with the default separator `T`. -/
structure PyDateTime where
  date : PyDate
  time : PyTime
  deriving DecidableEq

/-- CPython `datetime.isoformat()`. -/
def PyDateTime.isoformat (dt : PyDateTime) : String :=
  dt.date.isoformat ++ "T" ++ dt.time.isoformat

/-- The classes of Python objects that `json_default` distinguishes:
date/time-like values, complex numbers (real and imaginary parts modelled by
integers; floating-point formatting is out of scope), and any other object,
carried here by its `str()` rendering since `json_default` only ever applies
`str` to it. -/
inductive PyObj where
  | pdate (d : PyDate)
  | pdatetime (dt : PyDateTime)
  | ptime (t : PyTime)
  | pcomplex (re im : Int)
  | pother (s : String)
  deriving DecidableEq

/-- JSON values produced by the serializers. -/
inductive JValue where
  | jstr (s : String)
  | jint (n : Int)
  | jbool (b : Bool)
  | jnull
  | jarr (xs : List JValue)
  | jobj (kvs : List (String × JValue))

/-- Python `json_default(o)` from `log_utils.py`: date, datetime and time
render as `o.isoformat()`; complex renders as the dict
`\x7b"real": o.real, "imag": o.imag\x7d`; everything else renders as `str(o)`. -/
def json_default : PyObj → JValue
  | PyObj.pdate d => JValue.jstr d.isoformat
  | PyObj.pdatetime dt => JValue.jstr dt.isoformat
  | PyObj.ptime t => JValue.jstr t.isoformat
  | PyObj.pcomplex re im =>
    JValue.jobj [("real", JValue.jint re), ("imag", JValue.jint im)]
  | PyObj.pother s => JValue.jstr s

/-- Serializable Python values appearing as context or extras values: the
types `json.dumps` handles natively (str, int, bool, None, list, dict) plus
any other object, which `json.dumps` routes through its `default` hook, here
`json_default`. -/
inductive PVal where
  | pstr (s : String)
  | pint (n : Int)
  | pbool (b : Bool)
  | pnone
  | plist (xs : List PVal)
  | pdict (kvs : List (String × PVal))
  | pobj (o : PyObj)

mutual
/-- The JSON value that `json.dumps(v, default=json_default)` serializes:
native types map structurally, other objects through `json_default`. -/
def toJValue : PVal → JValue
  | PVal.pstr s => JValue.jstr s
  | PVal.pint n => JValue.jint n
  | PVal.pbool b => JValue.jbool b
  | PVal.pnone => JValue.jnull
  | PVal.plist xs => JValue.jarr (toJValueList xs)
  | PVal.pdict kvs => JValue.jobj (toJValuePairs kvs)
  | PVal.pobj o => json_default o

/-- Elementwise `toJValue` on list items. -/
def toJValueList : List PVal → List JValue
  | [] => []
  | v :: rest => toJValue v :: toJValueList rest

/-- Elementwise `toJValue` on dict entries. -/
def toJValuePairs : List (String × PVal) → List (String × JValue)
  | [] => []
  | (k, v) :: rest => (k, toJValue v) :: toJValuePairs rest
end

/-- Lowercase hexadecimal digit. -/
def hexDigit (n : Nat) : Char := Nat.digitChar (n % 16)

/-- Python `json.dumps` escaping of one character with the default
`ensure_ascii=True`: the two-character escapes of the JSON spec, `\uXXXX` for
other control or non-ASCII characters (characters beyond the basic
multilingual plane, which CPython writes as surrogate pairs, are out of
scope). -/
def escapeChar (c : Char) : List Char :=
  if c = '"' then ['\\', '"']
  else if c = '\\' then ['\\', '\\']
  else if c = '\n' then ['\\', 'n']
  else if c = '\r' then ['\\', 'r']
  else if c = '\t' then ['\\', 't']
  else if c = '\x08' then ['\\', 'b']
  else if c = '\x0c' then ['\\', 'f']
  else if c.toNat < 32 ∨ c.toNat > 126 then
    ['\\', 'u', hexDigit (c.toNat / 4096), hexDigit (c.toNat / 256),
      hexDigit (c.toNat / 16), hexDigit c.toNat]
  else [c]

/-- Python `json.dumps` rendering of a string, quotes included. -/
def encodeString (s : String) : String :=
  "\"" ++ String.mk (s.data.foldr (fun c acc => escapeChar c ++ acc) []) ++ "\""

/-- Insertion into a key-sorted list of serialized object entries. -/
def insertPair (p : String × String) : List (String × String) → List (String × String)
  | [] => [p]
  | q :: rest => if p.1 ≤ q.1 then p :: q :: rest else q :: insertPair p rest

/-- Key-sort of serialized object entries, as `sort_keys=True` requires; on
the duplicate-free key sets of Python dicts this coincides with any stable
sort. -/
def sortPairs : List (String × String) → List (String × String)
  | [] => []
  | p :: rest => insertPair p (sortPairs rest)

/-- Join with the default item separator of `json.dumps` (and of
`", ".join` in the plaintext handler). -/
def joinComma : List String → String
  | [] => ""
  | [s] => s
  | s :: rest => s ++ ", " ++ joinComma rest

/-- Render serialized object entries with the default key separator. -/
def renderPairs (ps : List (String × String)) : String :=
  joinComma (ps.map fun kv => encodeString kv.1 ++ ": " ++ kv.2)

mutual
/-- Python `json.dumps(v, sort_keys=True)` on a JSON value: each object's
entries are serialized and emitted in key-sorted order. Serializing the
entries first and then sorting the rendered pairs by key is equivalent to
CPython's sort-then-serialize because serialization of an entry depends only
on that entry. -/
def dumps : JValue → String
  | JValue.jstr s => encodeString s
  | JValue.jint n => toString n
  | JValue.jbool b => cond b "true" "false"
  | JValue.jnull => "null"
  | JValue.jarr xs => "[" ++ joinComma (dumpsList xs) ++ "]"
  | JValue.jobj kvs => "\x7b" ++ renderPairs (sortPairs (dumpsPairs kvs)) ++ "\x7d"

/-- Elementwise `dumps` on array items. -/
def dumpsList : List JValue → List String
  | [] => []
  | v :: rest => dumps v :: dumpsList rest

/-- Elementwise `dumps` on object entries (values only; keys stay). -/
def dumpsPairs : List (String × JValue) → List (String × String)
  | [] => []
  | (k, v) :: rest => (k, dumps v) :: dumpsPairs rest
end

/-- Python `_PlaintextLogContextHandler.plain_repr(o)`:
`json.dumps(o, default=json_default, sort_keys=True)`. -/
def plain_repr (v : PVal) : String :=
  dumps (toJValue v)

/-- A Python `logging.LogRecord` as the handlers see it: `natives` are the
attributes the logging machinery itself sets (their keys all belong to
`RESERVED_ATTRS`), `extras` are the attributes copied from the caller's
`extra=` dictionary by `Logger.makeRecord`. The value type is a parameter
because the handlers never inspect values. -/
structure LogRecord (α : Type) where
  natives : List (String × α)
  extras : List (String × α)

/-- The attribute lookup `record.__dict__[k]`: extras were copied onto the
record last, and `makeRecord` guarantees they never collide with natives. -/
def LogRecord.attr {α : Type} (r : LogRecord α) (k : String) : Option α :=
  (plookup k r.extras).orElse fun _ => plookup k r.natives

/-- Python `hasattr(record, k)`. -/
def LogRecord.hasattr {α : Type} (r : LogRecord α) (k : String) : Bool :=
  (r.attr k).isSome

/-- `Logger.makeRecord`: copying the caller's `extra` dict onto the record
raises `KeyError` ("Attempt to overwrite %r in LogRecord") when a key is
`message`, `asctime` or an existing record attribute; failure is modelled as
`Option.none`. -/
def makeRecord {α : Type} (natives extras : List (String × α)) :
    Option (LogRecord α) :=
  if extras.any fun kv =>
      decide (kv.1 = "message") || decide (kv.1 = "asctime")
        || (plookup kv.1 natives).isSome then
    Option.none
  else
    some ⟨natives, extras⟩

/-- `_StructuredLogContextHandler.handle`: every key of
`LogContext.getcontext()` that is not already an attribute of the record is
set on the record. The result is the record's final attribute map, which the
structured formatter renders; `ctx` is the merged context snapshot. -/
def structuredHandle {α : Type} (ctx : String → Option α) (r : LogRecord α)
    (k : String) : Option α :=
  (r.attr k).orElse fun _ => ctx k

/-- `_PlaintextLogContextHandler.RESERVED_ATTRS`. -/
def RESERVED_ATTRS : List String :=
  ["args", "asctime", "created", "exc_info", "exc_text", "filename", "funcName",
   "levelname", "levelno", "lineno", "module", "msecs", "message", "msg", "name",
   "pathname", "process", "processName", "relativeCreated", "stack_info",
   "thread", "threadName"]

/-- Python `key.startswith("_")`. -/
def startsUnderscore (k : String) : Bool :=
  match k.data with
  | [] => false
  | c :: _ => decide (c = '_')

/-- The record-attribute filter of `_PlaintextLogContextHandler.handle`:
`key not in RESERVED_ATTRS and not key.startswith("_") and key != "context"`. -/
def plaintextEligible (k : String) : Bool :=
  !(RESERVED_ATTRS.contains k) && !(startsUnderscore k) && !(decide (k = "context"))

/-- Python dict assignment `d[k] = v` on an insertion-ordered association
list: an existing key keeps its position and receives the new value, a new
key is appended. -/
def dinsert {α : Type} (d : List (String × α)) (k : String) (v : α) :
    List (String × α) :=
  if d.any fun kv => decide (kv.1 = k) then
    d.map fun kv => if kv.1 = k then (kv.1, v) else kv
  else
    d ++ [(k, v)]

/-- `_PlaintextLogContextHandler.handle`, first half: the merged dict `ctx` —
context entries whose key is not an attribute of the record, then every
record attribute with an eligible key assigned over it in iteration order
(native attributes first, then extras). -/
def plaintextCtx {α : Type} (ctxItems : List (String × α)) (r : LogRecord α) :
    List (String × α) :=
  (r.natives ++ r.extras).foldl
    (fun d kv => if plaintextEligible kv.1 then dinsert d kv.1 kv.2 else d)
    (ctxItems.filter fun kv => !(r.hasattr kv.1))

/-- `_PlaintextLogContextHandler.handle`, second half: the `record.context`
string — `" [k1=v1, k2=v2, ...]"` over the merged entries, or the empty string
when there are none. -/
def record_context (ctx : List (String × PVal)) : String :=
  if ctx.isEmpty then ""
  else " [" ++ joinComma (ctx.map fun kv => kv.1 ++ "=" ++ plain_repr kv.2) ++ "]"

/-- Left-justified `%(levelname)-7s`. -/
def padLevel (lvl : String) : String :=
  lvl ++ String.mk (List.replicate (7 - lvl.length) ' ')

/-- The plaintext `logging.Formatter` format of `_setup_plaintext_logging`:
`%(asctime)s %(levelname)-7s %(filename)s:%(lineno)s:%(funcName)s, process=%(process)d, thread=%(thread)d: %(message)s%(context)s`. -/
def formatLine (asctime levelname filename : String) (lineno : Nat)
    (funcName : String) (pid tid : Nat) (message context : String) : String :=
  asctime ++ " " ++ padLevel levelname ++ " " ++ filename ++ ":" ++ toString lineno
    ++ ":" ++ funcName ++ ", process=" ++ toString pid ++ ", thread="
    ++ toString tid ++ ": " ++ message ++ context

theorem getattrD_setattr_self (st : Store) (k : String) (v : PyVal) :
    (st.setattr k v).getattrD k = v := by
  simp [Store.setattr, Store.getattrD]

theorem getattrD_setattr_other (st : Store) (k k2 : String) (v : PyVal) (h : k2 ≠ k) :
    (st.setattr k v).getattrD k2 = st.getattrD k2 := by
  simp [Store.setattr, Store.getattrD, h]

theorem any_false_key_ne {α : Type} {rest : List (String × α)} {k : String}
    (hany : (rest.any fun kv => decide (kv.1 = k)) = false) :
    ∀ kv2 ∈ rest, kv2.1 ≠ k := by
  intro kv2 hm he
  have : (rest.any fun kv => decide (kv.1 = k)) = true :=
    List.any_eq_true.mpr ⟨kv2, hm, by simp [he]⟩
  rw [this] at hany; cases hany

theorem any_false_not_mem {α : Type} {rest : List (String × α)} {k : String}
    (hany : (rest.any fun kv => decide (kv.1 = k)) = false) : k ∉ pkeys rest := by
  intro hm
  have hx : ∃ a ∈ rest, a.1 = k := by simpa [pkeys] using hm
  obtain ⟨kv2, hm2, he⟩ := hx
  exact any_false_key_ne hany kv2 hm2 he

theorem plookup_isSome_of_mem {α : Type} (k : String) (l : List (String × α))
    (h : k ∈ pkeys l) : ∃ v, plookup k l = some v := by
  induction l with
  | nil => simp [pkeys] at h
  | cons kv rest ih =>
    obtain ⟨k0, v0⟩ := kv
    by_cases hk : k = k0
    · exact ⟨v0, by simp [plookup, hk]⟩
    · have hmem : k ∈ pkeys rest := by
        simpa [pkeys, hk] using h
      obtain ⟨v, hv⟩ := ih hmem
      exact ⟨v, by simpa [plookup, hk] using hv⟩

theorem enter_fst_not_mem (bs : List (String × PyVal)) (st : Store) (k : String)
    (h : k ∉ pkeys bs) : (_enter_context bs st).1 k = st k := by
  induction bs generalizing st with
  | nil => rfl
  | cons kv rest ih =>
    obtain ⟨k0, v0⟩ := kv
    have hk : k ≠ k0 := by
      intro he; exact h (by simp [pkeys, he])
    have hrest : k ∉ pkeys rest := by
      intro hm; exact h (by simp [pkeys] at hm ⊢; exact Or.inr hm)
    simpa [_enter_context, Store.setattr, hk] using ih (st.setattr k0 v0) hrest

theorem enter_snd_keys (bs : List (String × PyVal)) (st : Store) :
    pkeys (_enter_context bs st).2 = pkeys bs := by
  induction bs generalizing st with
  | nil => rfl
  | cons kv rest ih =>
    obtain ⟨k0, v0⟩ := kv
    simp [_enter_context, pkeys] at ih ⊢
    exact ih (st.setattr k0 v0)

theorem enter_snd_spec (bs : List (String × PyVal)) (st : Store)
    (h : nodupKeys bs = true) :
    (_enter_context bs st).2 = bs.map (fun kv => (kv.1, st.getattrD kv.1)) := by
  induction bs generalizing st with
  | nil => rfl
  | cons kv rest ih =>
    obtain ⟨k0, v0⟩ := kv
    simp only [nodupKeys, Bool.and_eq_true, Bool.not_eq_true'] at h
    obtain ⟨hany, hrest⟩ := h
    have hmap : rest.map (fun kv => (kv.1, (st.setattr k0 v0).getattrD kv.1))
        = rest.map (fun kv => (kv.1, st.getattrD kv.1)) := by
      apply List.map_congr_left
      intro kv2 hm
      rw [getattrD_setattr_other st k0 kv2.1 v0 (any_false_key_ne hany kv2 hm)]
    simp only [_enter_context, List.map]
    rw [ih (st.setattr k0 v0) hrest, hmap]

theorem enter_fst_mem (bs : List (String × PyVal)) (st : Store) (k : String) (v : PyVal)
    (hnd : nodupKeys bs = true) (h : plookup k bs = some v) :
    (_enter_context bs st).1 k = some v := by
  induction bs generalizing st with
  | nil => simp [plookup] at h
  | cons kv rest ih =>
    obtain ⟨k0, v0⟩ := kv
    simp only [nodupKeys, Bool.and_eq_true, Bool.not_eq_true'] at hnd
    obtain ⟨hany, hrest⟩ := hnd
    by_cases hk : k = k0
    · subst hk
      have hv : v0 = v := by simpa [plookup] using h
      subst hv
      have := enter_fst_not_mem rest (st.setattr k v0) k (any_false_not_mem hany)
      simp only [_enter_context]
      rw [this]
      simp [Store.setattr]
    · have hrl : plookup k rest = some v := by simpa [plookup, hk] using h
      simpa [_enter_context] using ih (st.setattr k0 v0) hrest hrl

theorem exit_fst_not_mem (prev : List (String × PyVal)) (st : Store) (k : String)
    (h : k ∉ pkeys prev) : (_exit_context prev st).1 k = st k := by
  induction prev generalizing st with
  | nil => rfl
  | cons kv rest ih =>
    obtain ⟨k0, p0⟩ := kv
    have hk : k ≠ k0 := by
      intro he; exact h (by simp [pkeys, he])
    have hrest : k ∉ pkeys rest := by
      intro hm; exact h (by simp [pkeys] at hm ⊢; exact Or.inr hm)
    by_cases hp : p0 = PyVal.none
    · cases hst : st k0 with
      | none => simp [_exit_context, hp, hst]
      | some w =>
        have := ih (st.delattr k0) hrest
        simpa [_exit_context, hp, hst, Store.delattr, hk] using this
    · have := ih (st.setattr k0 p0) hrest
      simpa [_exit_context, hp, Store.setattr, hk] using this

theorem exit_exc_shape (prev : List (String × PyVal)) (st : Store) :
    (_exit_context prev st).2 = Option.none ∨ (_exit_context prev st).2 = some Exc.attrErr := by
  induction prev generalizing st with
  | nil => exact Or.inl rfl
  | cons kv rest ih =>
    obtain ⟨k0, p0⟩ := kv
    by_cases hp : p0 = PyVal.none
    · cases hst : st k0 with
      | none => simp [_exit_context, hp, hst]
      | some w => simpa [_exit_context, hp, hst] using ih (st.delattr k0)
    · simpa [_exit_context, hp] using ih (st.setattr k0 p0)

theorem exit_restore (prev : List (String × PyVal)) (st : Store) (k : String) (p : PyVal)
    (hnd : nodupKeys prev = true) (hs : (_exit_context prev st).2 = Option.none)
    (hmem : (k, p) ∈ prev) :
    (_exit_context prev st).1 k = if p = PyVal.none then Option.none else some p := by
  induction prev generalizing st with
  | nil => cases hmem
  | cons kv rest ih =>
    obtain ⟨k0, p0⟩ := kv
    simp only [nodupKeys, Bool.and_eq_true, Bool.not_eq_true'] at hnd
    obtain ⟨hany, hrest⟩ := hnd
    rcases List.mem_cons.mp hmem with hhead | htail
    · rw [Prod.mk.injEq] at hhead
      obtain ⟨hk, hp⟩ := hhead
      subst hk; subst hp
      have hnotmem : k ∉ pkeys rest := any_false_not_mem hany
      by_cases hpn : p = PyVal.none
      · subst hpn
        cases hst : st k with
        | none => simp [_exit_context, hst] at hs
        | some w =>
          have hnm := exit_fst_not_mem rest (st.delattr k) k hnotmem
          simp [_exit_context, hst, hnm, Store.delattr]
      · have hnm := exit_fst_not_mem rest (st.setattr k p) k hnotmem
        simp [_exit_context, hpn, hnm, Store.setattr]
    · by_cases hp : p0 = PyVal.none
      · subst hp
        cases hst : st k0 with
        | none => simp [_exit_context, hst] at hs
        | some w =>
          simp only [_exit_context, hst] at hs ⊢
          exact ih (st.delattr k0) hrest hs htail
      · simp only [_exit_context, if_neg hp] at hs ⊢
        exact ih (st.setattr k0 p0) hrest hs htail

theorem nodupKeys_map {α β : Type} (l : List (String × α)) (f : String → β) :
    nodupKeys (l.map fun kv => (kv.1, f kv.1)) = nodupKeys l := by
  induction l with
  | nil => rfl
  | cons kv rest ih =>
    obtain ⟨k0, v0⟩ := kv
    have hany : ∀ (l : List (String × α)),
        ((l.map fun kv => (kv.1, f kv.1)).any fun kv => decide (kv.1 = k0))
          = l.any fun kv => decide (kv.1 = k0) := by
      intro l
      induction l with
      | nil => rfl
      | cons x t iht =>
        obtain ⟨a, b⟩ := x
        simp [iht]
    simp [nodupKeys, ih, hany rest]

theorem plookup_of_mem_nodup {α : Type} {bs : List (String × α)}
    (hnd : nodupKeys bs = true) {kv : String × α} (hm : kv ∈ bs) :
    plookup kv.1 bs = some kv.2 := by
  induction bs with
  | nil => cases hm
  | cons kv0 rest ih =>
    obtain ⟨k0, v0⟩ := kv0
    simp only [nodupKeys, Bool.and_eq_true, Bool.not_eq_true'] at hnd
    obtain ⟨hany, hrest⟩ := hnd
    rcases List.mem_cons.mp hm with hhead | htail
    · subst hhead
      simp [plookup]
    · have hne := any_false_key_ne hany kv htail
      simp only [plookup, if_neg hne]
      exact ih hrest htail

theorem exit_success (prev : List (String × PyVal)) (st : Store)
    (hnd : nodupKeys prev = true)
    (h : ∀ kp ∈ prev, kp.2 = PyVal.none → st kp.1 ≠ Option.none) :
    (_exit_context prev st).2 = Option.none := by
  induction prev generalizing st with
  | nil => rfl
  | cons kv rest ih =>
    obtain ⟨k0, p0⟩ := kv
    simp only [nodupKeys, Bool.and_eq_true, Bool.not_eq_true'] at hnd
    obtain ⟨hany, hrest⟩ := hnd
    by_cases hp : p0 = PyVal.none
    · cases hst : st k0 with
      | none =>
        exact absurd hst (h (k0, p0) (List.mem_cons_self _ _) hp)
      | some w =>
        simp only [_exit_context, hp, if_pos rfl, hst]
        apply ih (st.delattr k0) hrest
        intro kp hm hkp
        have heq : (st.delattr k0) kp.1 = st kp.1 := by
          simp [Store.delattr, any_false_key_ne hany kp hm]
        rw [heq]
        exact h kp (List.mem_cons_of_mem _ hm) hkp
    · simp only [_exit_context, hp, if_neg hp]
      apply ih (st.setattr k0 p0) hrest
      intro kp hm hkp
      have heq : (st.setattr k0 p0) kp.1 = st kp.1 := by
        simp [Store.setattr, any_false_key_ne hany kp hm]
      rw [heq]
      exact h kp (List.mem_cons_of_mem _ hm) hkp

theorem run_restores (p : Prog) (st : Store) (k : String)
    (hwf : progWF p = true)
    (hne : (run p st).2 ≠ some Exc.attrErr) :
    (run p st).1 k = st k ∨ (st.getattrD k = PyVal.none ∧ (run p st).1 k = Option.none) := by
  induction p generalizing st with
  | skip => exact Or.inl rfl
  | raiseE => exact Or.inl rfl
  | seq p q ihp ihq =>
    simp only [progWF, Bool.and_eq_true] at hwf
    obtain ⟨hwp, hwq⟩ := hwf
    cases hrp : run p st with
    | mk st1 e1 =>
      cases e1 with
      | none =>
        have hrun : run (Prog.seq p q) st = run q st1 := by
          simp [run, hrp]
        have d1 := ihp st hwp (by rw [hrp]; simp)
        rw [hrp] at d1
        have d2 := ihq st1 hwq (by rw [hrun] at hne; exact hne)
        rw [hrun]
        rcases d1 with h1 | h1 <;> rcases d2 with h2 | h2
        · exact Or.inl (h2.trans h1)
        · refine Or.inr ⟨?_, h2.2⟩
          have hg : st.getattrD k = Store.getattrD st1 k := by
            simp only [Store.getattrD]
            rw [show st1 k = st k from h1]
          rw [hg]; exact h2.1
        · exact Or.inr ⟨h1.1, h2.trans h1.2⟩
        · exact Or.inr ⟨h1.1, h2.2⟩
      | some e =>
        have hrun : run (Prog.seq p q) st = (st1, some e) := by
          simp [run, hrp]
        have d1 := ihp st hwp (by rw [hrp]; rw [hrun] at hne; simpa using hne)
        rw [hrp] at d1
        rw [hrun]
        exact d1
  | scope bs body ihb =>
    simp only [progWF, Bool.and_eq_true] at hwf
    obtain ⟨hnd, hwb⟩ := hwf
    have hrun : run (Prog.scope bs body) st =
        ((_exit_context (_enter_context bs st).2 (run body (_enter_context bs st).1).1).1,
         ((_exit_context (_enter_context bs st).2 (run body (_enter_context bs st).1).1).2).orElse
           fun _ => (run body (_enter_context bs st).1).2) := by
      simp [run]
    rw [hrun] at hne ⊢
    have hexit : (_exit_context (_enter_context bs st).2
        (run body (_enter_context bs st).1).1).2 = Option.none := by
      rcases exit_exc_shape (_enter_context bs st).2 (run body (_enter_context bs st).1).1 with
        hsh | hsh
      · exact hsh
      · rw [hsh] at hne
        simp [Option.orElse] at hne
    rw [hexit] at hne ⊢
    simp only [Option.orElse] at hne ⊢
    have hbody : (run body (_enter_context bs st).1).2 ≠ some Exc.attrErr := by
      simpa using hne
    by_cases hk : k ∈ pkeys bs
    · -- the key is bound by this scope: _exit_context restores it from previous_values
      have hmem : (k, st.getattrD k) ∈ (_enter_context bs st).2 := by
        rw [enter_snd_spec bs st hnd]
        have hx : ∃ a ∈ bs, a.1 = k := by simpa [pkeys] using hk
        obtain ⟨kv, hm2, he⟩ := hx
        subst he
        exact List.mem_map.mpr ⟨kv, hm2, rfl⟩
      have hnd2 : nodupKeys (_enter_context bs st).2 = true := by
        rw [enter_snd_spec bs st hnd, nodupKeys_map]; exact hnd
      have hres := exit_restore (_enter_context bs st).2
        (run body (_enter_context bs st).1).1 k (st.getattrD k) hnd2 hexit hmem
      by_cases hgn : st.getattrD k = PyVal.none
      · rw [hres, if_pos hgn]
        exact Or.inr ⟨hgn, rfl⟩
      · rw [hres, if_neg hgn]
        left
        cases hst : st k with
        | none =>
          exact absurd (by simp [Store.getattrD, hst]) hgn
        | some w =>
          simp [Store.getattrD, hst]
    · -- the key is untouched by this scope
      have hen : (_enter_context bs st).1 k = st k := enter_fst_not_mem bs st k hk
      have hkp : k ∉ pkeys (_enter_context bs st).2 := by
        rw [enter_snd_keys]; exact hk
      have hex : (_exit_context (_enter_context bs st).2
          (run body (_enter_context bs st).1).1).1 k
          = (run body (_enter_context bs st).1).1 k :=
        exit_fst_not_mem _ _ k hkp
      have hgd : Store.getattrD (_enter_context bs st).1 k = st.getattrD k := by
        simp only [Store.getattrD]; rw [hen]
      have d := ihb (_enter_context bs st).1 hwb hbody
      rcases d with h1 | h1
      · exact Or.inl (by rw [hex, h1, hen])
      · exact Or.inr ⟨by rw [← hgd]; exact h1.1, by rw [hex]; exact h1.2⟩

theorem run_no_attrErr (p : Prog) (st : Store)
    (hwf : progWF p = true) (hnn : progNoNone p = true) :
    (run p st).2 ≠ some Exc.attrErr := by
  induction p generalizing st with
  | skip => simp [run]
  | raiseE => simp [run]
  | seq p q ihp ihq =>
    simp only [progWF, progNoNone, Bool.and_eq_true] at hwf hnn
    obtain ⟨hwp, hwq⟩ := hwf
    obtain ⟨hnp, hnq⟩ := hnn
    cases hrp : run p st with
    | mk st1 e1 =>
      cases e1 with
      | none =>
        have hrun : run (Prog.seq p q) st = run q st1 := by
          simp [run, hrp]
        rw [hrun]
        exact ihq st1 hwq hnq
      | some e =>
        have hrun : run (Prog.seq p q) st = (st1, some e) := by
          simp [run, hrp]
        rw [hrun]
        have := ihp st hwp hnp
        rw [hrp] at this
        simpa using this
  | scope bs body ihb =>
    simp only [progWF, progNoNone, Bool.and_eq_true] at hwf hnn
    obtain ⟨hnd, hwb⟩ := hwf
    obtain ⟨hvals, hnnb⟩ := hnn
    have hrun : run (Prog.scope bs body) st =
        ((_exit_context (_enter_context bs st).2 (run body (_enter_context bs st).1).1).1,
         ((_exit_context (_enter_context bs st).2 (run body (_enter_context bs st).1).1).2).orElse
           fun _ => (run body (_enter_context bs st).1).2) := by
      simp [run]
    rw [hrun]
    have hbody := ihb (_enter_context bs st).1 hwb hnnb
    have hnd2 : nodupKeys (_enter_context bs st).2 = true := by
      rw [enter_snd_spec bs st hnd, nodupKeys_map]; exact hnd
    have hexit : (_exit_context (_enter_context bs st).2
        (run body (_enter_context bs st).1).1).2 = Option.none := by
      apply exit_success _ _ hnd2
      intro kp hm hkp
      rw [enter_snd_spec bs st hnd] at hm
      obtain ⟨kv, hkv, hkveq⟩ := List.mem_map.mp hm
      -- the scope bound kp.1 to the non-None value kv.2, so after the body it is
      -- still bound (by run_restores), hence delattr cannot fail
      have hk1 : kp.1 = kv.1 := by rw [← hkveq]
      have hval : kv.2 ≠ PyVal.none := by
        have := List.all_eq_true.mp hvals kv hkv
        simpa using this
      have hlook : plookup kv.1 bs = some kv.2 := plookup_of_mem_nodup hnd hkv
      have hbound : (_enter_context bs st).1 kv.1 = some kv.2 :=
        enter_fst_mem bs st kv.1 kv.2 hnd hlook
      have hrest := run_restores body (_enter_context bs st).1 kv.1 hwb hbody
      rcases hrest with h1 | h1
      · rw [hk1, h1, hbound]
        simp
      · exact absurd (by simpa [Store.getattrD, hbound] using h1.1) hval
    rw [hexit]
    simpa using hbody

/-- C1 (counterexample): the claim that exiting a scope restores every key of the
scope to exactly its pre-entry value fails when the key was bound to `None`
before entry. With the context holding `k = None`, entering a scope that binds
`k = 2` and exiting normally (no exception anywhere) leaves `k` unbound, because
`_enter_context` recorded the previous value through `getattr(..., None)` and
`_exit_context` therefore runs `delattr`. -/
theorem restore_pre_entry_counterexample :
    (run (Prog.scope [("k", PyVal.vint 2)] Prog.skip)
      (Store.empty.setattr "k" PyVal.none)).2 = Option.none
    ∧ (Store.empty.setattr "k" PyVal.none) "k" = some PyVal.none
    ∧ (run (Prog.scope [("k", PyVal.vint 2)] Prog.skip)
        (Store.empty.setattr "k" PyVal.none)).1 "k"
      ≠ (Store.empty.setattr "k" PyVal.none) "k" :=
  ⟨by decide, by decide, by decide⟩

/-- C1 (amended): for a scope whose binding keys are distinct, provided the
restore loop did not itself raise (`attrErr`), every key of the scope whose
pre-entry value was a non-`None` value is restored to exactly that value, and a
key that was unbound — or bound to `None` — before entry is unbound after exit.
This holds whether the body completed normally or raised, since `__exit__` runs
`_exit_context` unconditionally. -/
theorem restore_pre_entry_amended (bs : List (String × PyVal)) (body : Prog) (st : Store)
    (k : String) (hnd : nodupKeys bs = true) (hk : k ∈ pkeys bs)
    (hx : (run (Prog.scope bs body) st).2 ≠ some Exc.attrErr) :
    (∀ v, v ≠ PyVal.none → st k = some v → (run (Prog.scope bs body) st).1 k = some v)
    ∧ (st.getattrD k = PyVal.none → (run (Prog.scope bs body) st).1 k = Option.none) := by
  have hrun : run (Prog.scope bs body) st =
      ((_exit_context (_enter_context bs st).2 (run body (_enter_context bs st).1).1).1,
       ((_exit_context (_enter_context bs st).2 (run body (_enter_context bs st).1).1).2).orElse
         fun _ => (run body (_enter_context bs st).1).2) := by
    simp [run]
  rw [hrun] at hx ⊢
  have hexit : (_exit_context (_enter_context bs st).2
      (run body (_enter_context bs st).1).1).2 = Option.none := by
    rcases exit_exc_shape (_enter_context bs st).2 (run body (_enter_context bs st).1).1 with
      hsh | hsh
    · exact hsh
    · rw [hsh] at hx
      simp [Option.orElse] at hx
  have hmem : (k, st.getattrD k) ∈ (_enter_context bs st).2 := by
    rw [enter_snd_spec bs st hnd]
    have hx2 : ∃ a ∈ bs, a.1 = k := by simpa [pkeys] using hk
    obtain ⟨kv, hm2, he⟩ := hx2
    subst he
    exact List.mem_map.mpr ⟨kv, hm2, rfl⟩
  have hnd2 : nodupKeys (_enter_context bs st).2 = true := by
    rw [enter_snd_spec bs st hnd, nodupKeys_map]; exact hnd
  have hres := exit_restore (_enter_context bs st).2
    (run body (_enter_context bs st).1).1 k (st.getattrD k) hnd2 hexit hmem
  constructor
  · intro v hv hst
    have hg : st.getattrD k = v := by simp [Store.getattrD, hst]
    rw [hres, hg, if_neg hv]
  · intro hgn
    rw [hres, hgn]
    simp

/-- C1 (witness for the amended theorem): a scope rebinding `k` over the
pre-entry value `"old"`, whose body raises, still restores `k = "old"`. -/
theorem restore_pre_entry_amended_witness :
    nodupKeys [("k", PyVal.vint 7)] = true
    ∧ "k" ∈ pkeys [("k", PyVal.vint 7)]
    ∧ (run (Prog.scope [("k", PyVal.vint 7)] Prog.raiseE)
        (Store.empty.setattr "k" (PyVal.vstr "old"))).2 ≠ some Exc.attrErr
    ∧ (run (Prog.scope [("k", PyVal.vint 7)] Prog.raiseE)
        (Store.empty.setattr "k" (PyVal.vstr "old"))).1 "k" = some (PyVal.vstr "old") :=
  ⟨by decide, by decide, by decide,
    (restore_pre_entry_amended [("k", PyVal.vint 7)] Prog.raiseE
        (Store.empty.setattr "k" (PyVal.vstr "old")) "k"
        (by decide) (by decide) (by decide)).1 (PyVal.vstr "old") (by decide) (by decide)⟩

/-- C4 (counterexample): the restore loop of `_exit_context` can raise. Nesting
`with LogContext(k=None): with LogContext(k=2): pass` from an empty context
makes the outer exit run `delattr` on an attribute that the inner exit already
deleted, so the outer `_exit_context` raises `AttributeError`. The error branch
is therefore reachable for properly nested scopes once a binding value is
`None`, which the claim explicitly includes. -/
theorem exit_error_unreachable_counterexample :
    (run (Prog.scope [("k", PyVal.none)] (Prog.scope [("k", PyVal.vint 2)] Prog.skip))
      Store.empty).2 = some Exc.attrErr := by
  decide

/-- C4 (amended): for every properly nested program whose scopes have distinct
keys and bind no key to the value `None`, no execution from any starting store
ever raises from the restore loop of `_exit_context`. -/
theorem exit_error_amended (p : Prog) (st : Store)
    (hwf : progWF p = true) (hnn : progNoNone p = true) :
    (run p st).2 ≠ some Exc.attrErr :=
  run_no_attrErr p st hwf hnn

/-- C4 (witness for the amended theorem): a nested non-`None` program with a
raising body runs without an `AttributeError` from the restore loop. -/
theorem exit_error_amended_witness :
    progWF (Prog.scope [("trace_id", PyVal.vint 1), ("user", PyVal.vstr "u")]
      (Prog.scope [("trace_id", PyVal.vint 2)] Prog.raiseE)) = true
    ∧ progNoNone (Prog.scope [("trace_id", PyVal.vint 1), ("user", PyVal.vstr "u")]
      (Prog.scope [("trace_id", PyVal.vint 2)] Prog.raiseE)) = true
    ∧ (run (Prog.scope [("trace_id", PyVal.vint 1), ("user", PyVal.vstr "u")]
        (Prog.scope [("trace_id", PyVal.vint 2)] Prog.raiseE)) Store.empty).2
      ≠ some Exc.attrErr :=
  ⟨by decide, by decide,
    exit_error_amended _ Store.empty (by decide) (by decide)⟩

/-- C3: `getcontext` returns the `DefaultContext` value for a key with no
thread-local binding, the thread-local value when one exists (the local binding
shadows the default), and after nested scope entries the innermost binding of
a key is the one visible; an outer binding stays visible for keys the inner
scope does not rebind. -/
theorem getcontext_default_shadow (st : Store) (d : Defaults) (k : String)
    (bs1 bs2 : List (String × PyVal))
    (hnd1 : nodupKeys bs1 = true) (hnd2 : nodupKeys bs2 = true) :
    (st k = Option.none → getcontext st d k = d k)
    ∧ (∀ v, st k = some v → getcontext st d k = some v)
    ∧ (∀ v2, plookup k bs2 = some v2 →
        getcontext (_enter_context bs2 (_enter_context bs1 st).1).1 d k = some v2)
    ∧ (∀ v1, plookup k bs2 = Option.none → plookup k bs1 = some v1 →
        getcontext (_enter_context bs2 (_enter_context bs1 st).1).1 d k = some v1) := by
  refine ⟨?_, ?_, ?_, ?_⟩
  · intro h
    simp [getcontext, h, Option.orElse]
  · intro v h
    simp [getcontext, h, Option.orElse]
  · intro v2 h
    have := enter_fst_mem bs2 (_enter_context bs1 st).1 k v2 hnd2 h
    simp [getcontext, this, Option.orElse]
  · intro v1 h2 h1
    have hnm : k ∉ pkeys bs2 := by
      intro hm
      obtain ⟨v, hv⟩ := plookup_isSome_of_mem k bs2 hm
      rw [hv] at h2; cases h2
    have hout := enter_fst_mem bs1 st k v1 hnd1 h1
    have hin := enter_fst_not_mem bs2 (_enter_context bs1 st).1 k hnm
    simp [getcontext, hin, hout, Option.orElse]

/-- C3 (witness): with a seeded default `git_commit_id = "abc"` and nested
scopes binding `trace_id` (outer 123, inner 42), the default is visible for
`git_commit_id` and the innermost value 42 is visible for `trace_id`. -/
theorem getcontext_default_shadow_witness :
    getcontext Store.empty (set_default Defaults.empty "git_commit_id" (PyVal.vstr "abc"))
        "git_commit_id" = some (PyVal.vstr "abc")
    ∧ getcontext
        (_enter_context [("trace_id", PyVal.vint 42)]
          (_enter_context [("trace_id", PyVal.vint 123), ("foo", PyVal.vstr "bar")]
            Store.empty).1).1
        (set_default Defaults.empty "git_commit_id" (PyVal.vstr "abc")) "trace_id"
      = some (PyVal.vint 42) :=
  ⟨(getcontext_default_shadow Store.empty
      (set_default Defaults.empty "git_commit_id" (PyVal.vstr "abc")) "git_commit_id"
      [("trace_id", PyVal.vint 123), ("foo", PyVal.vstr "bar")] [("trace_id", PyVal.vint 42)]
      (by decide) (by decide)).1 (by decide),
   (getcontext_default_shadow Store.empty
      (set_default Defaults.empty "git_commit_id" (PyVal.vstr "abc")) "trace_id"
      [("trace_id", PyVal.vint 123), ("foo", PyVal.vstr "bar")] [("trace_id", PyVal.vint 42)]
      (by decide) (by decide)).2.2.1 (PyVal.vint 42) (by decide)⟩

/-- C5 (counterexample): with `NIVACLOUD_PLAINTEXT_LOGS=yes` the code selects
plaintext mode although `yes` is not one of the claimed truthy tokens
`1`/`true`/`t`: the source tests membership in the falsy tuple
`("", "0", "false", "f")`, not in a truthy whitelist. -/
theorem plaintext_env_counterexample :
    plaintext_from_env (some "yes") = true
    ∧ plaintext_spec_truthy (some "yes") = false :=
  ⟨by decide, by decide⟩

/-- C5 (amended): with `plaintext=None`, plaintext mode is selected if and only
if the lowered value of `NIVACLOUD_PLAINTEXT_LOGS` is not one of `""`, `"0"`,
`"false"`, `"f"`; an unset variable selects structured output, and each of the
spec's truthy tokens does select plaintext. -/
theorem plaintext_env_amended (env : Option String) :
    (plaintext_from_env Option.none = false)
    ∧ (∀ s, pyLower s ∈ (["1", "true", "t"] : List String) →
        plaintext_from_env (some s) = true)
    ∧ (plaintext_from_env env = true ↔
        pyLower (env.getD "") ∉ (["", "0", "false", "f"] : List String)) := by
  refine ⟨by decide, ?_, ?_⟩
  · intro s hs
    simp only [List.mem_cons, List.not_mem_nil, or_false] at hs
    rcases hs with h | h | h <;>
      simp [plaintext_from_env, Option.getD, h]
  · simp [plaintext_from_env, List.contains_iff_exists_mem_beq]

/-- C5 (witness for the amended theorem): the truthy token `TRUE` (mixed case)
selects plaintext. -/
theorem plaintext_env_amended_witness :
    pyLower "TRUE" ∈ (["1", "true", "t"] : List String)
    ∧ plaintext_from_env (some "TRUE") = true :=
  ⟨by decide, (plaintext_env_amended (some "TRUE")).2.1 "TRUE" (by decide)⟩

theorem removeLoop_out_of_range (hs : List Handler) (i : Nat) (h : ¬ i < hs.length) :
    removeLoop hs i = hs := by
  rw [removeLoop]
  simp [h]

theorem get_append_length {α : Type} (l1 : List α) (x : α) (rest : List α)
    (h : l1.length < (l1 ++ x :: rest).length) :
    (l1 ++ x :: rest).get ⟨l1.length, h⟩ = x := by
  induction l1 with
  | nil => rfl
  | cons a t ih =>
    exact ih (by simp)

theorem eraseIdx_append_length {α : Type} (l1 : List α) (x : α) (rest : List α) :
    (l1 ++ x :: rest).eraseIdx l1.length = l1 ++ rest := by
  induction l1 with
  | nil => rfl
  | cons a t ih =>
    simp only [List.cons_append, List.length_cons, List.eraseIdx_cons_succ, ih]

theorem removeLoop_append : ∀ (l2 l1 : List Handler),
    removeLoop (l1 ++ l2) l1.length = l1 ++ removeRec l2
  | [], l1 => by
    rw [removeLoop_out_of_range (l1 ++ []) l1.length (by simp)]
    simp [removeRec]
  | x :: rest, l1 => by
    have hlt : l1.length < (l1 ++ x :: rest).length := by simp
    rw [removeLoop]
    rw [dif_pos hlt, get_append_length l1 x rest hlt]
    by_cases hm : isLogContextHandler x
    · rw [if_pos hm, eraseIdx_append_length]
      cases rest with
      | nil =>
        have hr : removeRec [x] = [] := by simp [removeRec, hm]
        rw [hr, List.append_nil, removeLoop_out_of_range l1 (l1.length + 1) (by omega)]
      | cons y rest2 =>
        have h2 := removeLoop_append rest2 (l1 ++ [y])
        simp only [List.append_assoc, List.singleton_append, List.length_append,
          List.length_singleton] at h2
        have hr : removeRec (x :: y :: rest2) = y :: removeRec rest2 := by
          simp [removeRec, hm]
        rw [hr]
        exact h2
    · rw [if_neg hm]
      cases rest with
      | nil =>
        have hr : removeRec [x] = [x] := by simp [removeRec, hm]
        rw [hr, removeLoop_out_of_range (l1 ++ [x]) (l1.length + 1) (by simp)]
      | cons y rest2 =>
        have h2 := removeLoop_append (y :: rest2) (l1 ++ [x])
        simp only [List.append_assoc, List.singleton_append, List.length_append,
          List.length_singleton] at h2
        have hr : removeRec (x :: y :: rest2) = x :: removeRec (y :: rest2) := by
          simp [removeRec, hm]
        rw [hr]
        exact h2
termination_by l2 _ => l2.length

theorem remove_existing_eq_removeRec (hs : List Handler) :
    _remove_existing_stream_handlers hs = removeRec hs := by
  simpa [_remove_existing_stream_handlers] using removeLoop_append hs []

theorem removeRec_all_nonmarker : ∀ hs : List Handler,
    (∀ x ∈ hs, isLogContextHandler x = false) → removeRec hs = hs
  | [], _ => rfl
  | [x], h => by
    simp [removeRec, h x (List.mem_cons_self _ _)]
  | x :: y :: rest2, h => by
    have hx := h x (List.mem_cons_self _ _)
    simp only [removeRec, hx, Bool.false_eq_true, if_false]
    rw [removeRec_all_nonmarker (y :: rest2) fun z hz => h z (List.mem_cons_of_mem _ hz)]

theorem removeRec_le_one_marker : ∀ hs : List Handler, countMarkers hs ≤ 1 →
    removeRec hs = hs.filter fun x => !isLogContextHandler x
  | [], _ => rfl
  | [x], _ => by
    by_cases hx : isLogContextHandler x <;> simp [removeRec, hx, List.filter]
  | x :: y :: rest2, h => by
    by_cases hx : isLogContextHandler x
    · have hrest : ∀ z ∈ y :: rest2, isLogContextHandler z = false := by
        have hc : countMarkers (y :: rest2) = 0 := by
          simp only [countMarkers, List.countP_cons, hx, if_pos] at h
          simp only [countMarkers, List.countP_cons]
          omega
        intro z hz
        have := List.countP_eq_zero.mp hc z hz
        simpa using this
      have hy : isLogContextHandler y = false := hrest y (List.mem_cons_self _ _)
      have h2 : ∀ z ∈ rest2, isLogContextHandler z = false := fun z hz =>
        hrest z (List.mem_cons_of_mem _ hz)
      have hr : removeRec (x :: y :: rest2) = y :: removeRec rest2 := by
        simp [removeRec, hx]
      rw [hr, removeRec_all_nonmarker rest2 h2]
      rw [List.filter_cons_of_neg (by simp [hx]), List.filter_cons_of_pos (by simp [hy])]
      rw [List.filter_eq_self.mpr fun z hz => by simp [h2 z hz]]
    · have hx2 : isLogContextHandler x = false := by simpa using hx
      have hle : countMarkers (y :: rest2) ≤ 1 := by
        simp only [countMarkers, List.countP_cons, hx2] at h ⊢
        omega
      have hr : removeRec (x :: y :: rest2) = x :: removeRec (y :: rest2) := by
        simp [removeRec, hx2]
      have hf : List.filter (fun z => !isLogContextHandler z) (x :: y :: rest2)
          = x :: List.filter (fun z => !isLogContextHandler z) (y :: rest2) :=
        List.filter_cons_of_pos (by simp [hx2])
      rw [hr, removeRec_le_one_marker (y :: rest2) hle, hf]

theorem setup_marker_once (hs : List Handler) (n : Nat) (h : countMarkers hs ≤ 1) :
    countMarkers (setupSinks hs n) = 1 := by
  rw [setupSinks, remove_existing_eq_removeRec, removeRec_le_one_marker hs h]
  simp [countMarkers, List.countP_append, List.countP_filter, isLogContextHandler,
    List.countP_cons]

/-- C7: `setup_logging` is idempotent with respect to sinks. Starting from a
root-logger handler list holding at most one marker-typed sink — the only
states the module itself produces, since `_LogContextHandler` is
module-private and only `setup_logging` installs instances of it — one setup
call leaves exactly one marker sink; a second call still leaves exactly one,
so one emitted event is rendered by exactly one installed sink, not two; no
handler that is not of the marker type is removed; and the removal step
removes every marker-typed handler present. -/
theorem setup_idempotent_sinks (hs : List Handler) (n1 n2 : Nat)
    (h : countMarkers hs ≤ 1) :
    countMarkers (setupSinks hs n1) = 1
    ∧ countMarkers (setupSinks (setupSinks hs n1) n2) = 1
    ∧ (setupSinks hs n1).filter (fun x => !isLogContextHandler x)
        = hs.filter (fun x => !isLogContextHandler x)
    ∧ (∀ x ∈ hs, isLogContextHandler x = true →
        x ∉ _remove_existing_stream_handlers hs) := by
  refine ⟨setup_marker_once hs n1 h, ?_, ?_, ?_⟩
  · exact setup_marker_once _ n2 (by rw [setup_marker_once hs n1 h])
  · rw [setupSinks, remove_existing_eq_removeRec, removeRec_le_one_marker hs h]
    simp [List.filter_append, List.filter_filter, isLogContextHandler]
  · intro x hx hm
    rw [remove_existing_eq_removeRec, removeRec_le_one_marker hs h]
    simp [List.mem_filter, hm]

/-- C7 (witness): from a root logger with one unrelated handler and one stale
marker sink, two consecutive setup calls leave exactly one marker sink. -/
theorem setup_idempotent_sinks_witness :
    countMarkers [Handler.other 5, Handler.marker 9] ≤ 1
    ∧ countMarkers (setupSinks (setupSinks [Handler.other 5, Handler.marker 9] 1) 2) = 1 :=
  ⟨by decide,
    (setup_idempotent_sinks [Handler.other 5, Handler.marker 9] 1 2 (by decide)).2.1⟩

/-- C8: after the runtime level controller is installed over `loggers`, receipt
of `SIGUSR2` sets level DEBUG (10) and receipt of `SIGUSR1` sets level INFO
(20) on every registered logger; for each of the two signals, a previously
installed handler that was not the platform default is invoked exactly once,
after all the level changes (handling chains rather than replaces); and when
the previous disposition was the platform default (or no handler), no extra
invocation happens. -/
theorem signal_handler_spec (prev : Sig → PrevHandler) (loggers : List Nat) :
    (∀ lg ∈ loggers, SigAction.setLevel lg 10 ∈ handle_usr_signal prev loggers Sig.sigusr2)
    ∧ (∀ lg ∈ loggers, SigAction.setLevel lg 20 ∈ handle_usr_signal prev loggers Sig.sigusr1)
    ∧ (∀ s i, prev s = PrevHandler.custom i →
        handle_usr_signal prev loggers s =
          (loggers.map fun lg => SigAction.setLevel lg (usr_signals s))
            ++ [SigAction.callPrev i])
    ∧ (∀ s, prev s = PrevHandler.sigDfl ∨ prev s = PrevHandler.pyNone →
        handle_usr_signal prev loggers s =
          loggers.map fun lg => SigAction.setLevel lg (usr_signals s)) := by
  refine ⟨?_, ?_, ?_, ?_⟩
  · intro lg hm
    apply List.mem_append_left
    exact List.mem_map.mpr ⟨lg, hm, rfl⟩
  · intro lg hm
    apply List.mem_append_left
    exact List.mem_map.mpr ⟨lg, hm, rfl⟩
  · intro s i h
    simp [handle_usr_signal, previous_handlers, h]
  · intro s h
    rcases h with h | h <;> simp [handle_usr_signal, previous_handlers, h]

/-- C8 (witness): with a previously installed custom handler on `SIGUSR1` and
the platform default on `SIGUSR2`, delivering `SIGUSR1` to two loggers sets
INFO on both and then chains to the previous handler. -/
theorem signal_handler_spec_witness :
    (fun s => match s with
      | Sig.sigusr1 => PrevHandler.custom 7
      | Sig.sigusr2 => PrevHandler.sigDfl) Sig.sigusr1 = PrevHandler.custom 7
    ∧ handle_usr_signal
        (fun s => match s with
          | Sig.sigusr1 => PrevHandler.custom 7
          | Sig.sigusr2 => PrevHandler.sigDfl) [0, 1] Sig.sigusr1
      = ([0, 1].map fun lg => SigAction.setLevel lg (usr_signals Sig.sigusr1))
          ++ [SigAction.callPrev 7] :=
  ⟨rfl,
    (signal_handler_spec
        (fun s => match s with
          | Sig.sigusr1 => PrevHandler.custom 7
          | Sig.sigusr2 => PrevHandler.sigDfl) [0, 1]).2.2.1 Sig.sigusr1 7 rfl⟩

/-- C10 (counterexample): the context store is `threading.local()`, so bindings
follow the worker thread, not the logical task. A task that enters a scope
binding `trace_id = 123` while running on worker thread 0 and then resumes on
worker thread 1 no longer sees the binding (first conjunct, refuting "remain
visible ... even if the underlying worker thread differs"); meanwhile any other
task scheduled onto worker thread 0 does see it (second conjunct, refuting
"each unit's getAll() reflects only its own bindings" for asynchronous tasks
that share a worker thread). -/
theorem task_isolation_counterexample :
    getcontextOn 1 (enterOn 0 [("trace_id", PyVal.vint 123)] TStore.empty).1
        Defaults.empty "trace_id" = Option.none
    ∧ getcontextOn 0 (enterOn 0 [("trace_id", PyVal.vint 123)] TStore.empty).1
        Defaults.empty "trace_id" = some (PyVal.vint 123) :=
  ⟨by decide, by decide⟩

/-- C10 (amended): isolation does hold at the granularity of OS worker
threads: entering or exiting a scope on one worker thread leaves every other
worker thread's visible context (local bindings over defaults) unchanged,
for every key. -/
theorem thread_isolation_amended (ts : TStore) (tid1 tid2 : Nat) (h : tid1 ≠ tid2)
    (bs prev : List (String × PyVal)) (d : Defaults) (k : String) :
    getcontextOn tid2 (enterOn tid1 bs ts).1 d k = getcontextOn tid2 ts d k
    ∧ getcontextOn tid2 (exitOn tid1 prev ts).1 d k = getcontextOn tid2 ts d k := by
  have h2 : tid2 ≠ tid1 := Ne.symm h
  constructor <;> simp [getcontextOn, enterOn, exitOn, getcontext, h2]

/-- C10 (witness for the amended theorem): a binding made on worker thread 0 is
invisible to worker thread 1, whose view is unchanged. -/
theorem thread_isolation_amended_witness :
    (0 : Nat) ≠ 1
    ∧ getcontextOn 1 (enterOn 0 [("k", PyVal.vint 5)] TStore.empty).1 Defaults.empty "k"
        = getcontextOn 1 TStore.empty Defaults.empty "k" :=
  ⟨by decide,
    (thread_isolation_amended TStore.empty 0 1 (by decide) [("k", PyVal.vint 5)] []
      Defaults.empty "k").1⟩

/-- C6: `json_default` is total and drops nothing: every date, datetime and
time value renders as its ISO-8601 string (a date renders as 10 characters
with dashes at positions 4 and 7; a datetime has the `T` separator at
position 10), every complex number renders as a structure with named real and
imaginary components, and every other value renders as its `str()` form. -/
theorem json_default_total_spec (d : PyDate) (t : PyTime) (dt : PyDateTime)
    (re im : Int) (s : String) :
    (json_default (PyObj.pdate d) = JValue.jstr d.isoformat
      ∧ d.isoformat.length = 10
      ∧ d.isoformat.data.get? 4 = some '-'
      ∧ d.isoformat.data.get? 7 = some '-')
    ∧ (json_default (PyObj.pdatetime dt) = JValue.jstr dt.isoformat
      ∧ dt.isoformat.data.get? 10 = some 'T')
    ∧ json_default (PyObj.ptime t) = JValue.jstr t.isoformat
    ∧ json_default (PyObj.pcomplex re im)
        = JValue.jobj [("real", JValue.jint re), ("imag", JValue.jint im)]
    ∧ json_default (PyObj.pother s) = JValue.jstr s :=
  ⟨⟨rfl, rfl, rfl, rfl⟩, ⟨rfl, rfl⟩, rfl, rfl, rfl⟩

theorem plookup_some_mem {α : Type} {k : String} {l : List (String × α)} {v : α}
    (h : plookup k l = some v) : (k, v) ∈ l := by
  induction l with
  | nil => simp [plookup] at h
  | cons kv rest ih =>
    obtain ⟨k0, v0⟩ := kv
    by_cases hk : k = k0
    · subst hk
      have hv : v0 = v := by simpa [plookup] using h
      subst hv
      exact List.mem_cons_self _ _
    · have h2 : plookup k rest = some v := by simpa [plookup, hk] using h
      exact List.mem_cons_of_mem _ (ih h2)

theorem plookup_eq_none {α : Type} {k : String} {l : List (String × α)}
    (h : ∀ kv ∈ l, kv.1 ≠ k) : plookup k l = Option.none := by
  induction l with
  | nil => rfl
  | cons kv rest ih =>
    have hk : ¬(k = kv.1) := fun he => h kv (List.mem_cons_self _ _) he.symm
    simp only [plookup]
    rw [if_neg hk]
    exact ih fun kv2 hm => h kv2 (List.mem_cons_of_mem _ hm)

theorem plookup_append {α : Type} (k : String) (l1 l2 : List (String × α)) :
    plookup k (l1 ++ l2) = (plookup k l1).orElse fun _ => plookup k l2 := by
  induction l1 with
  | nil => simp [plookup, Option.orElse]
  | cons kv rest ih =>
    by_cases hk : k = kv.1
    · simp [plookup, hk, Option.orElse]
    · simp [plookup, hk, ih, Option.orElse]

theorem plookup_map_replace {α : Type} (k : String) (v : α) (d : List (String × α))
    (h : (d.any fun kv => decide (kv.1 = k)) = true) :
    plookup k (d.map fun kv => if kv.1 = k then (kv.1, v) else kv) = some v := by
  induction d with
  | nil => simp at h
  | cons kv rest ih =>
    by_cases hk : kv.1 = k
    · simp only [List.map_cons, if_pos hk]
      simp [plookup, hk]
    · have hk2 : ¬(k = kv.1) := fun he => hk he.symm
      have h2 : (rest.any fun kv => decide (kv.1 = k)) = true := by
        simpa [hk] using h
      simp only [List.map_cons]
      rw [if_neg hk]
      simp only [plookup]
      rw [if_neg hk2]
      exact ih h2

theorem plookup_map_other {α : Type} (k k0 : String) (v : α) (d : List (String × α))
    (hne : k ≠ k0) :
    plookup k (d.map fun kv => if kv.1 = k0 then (kv.1, v) else kv) = plookup k d := by
  induction d with
  | nil => rfl
  | cons kv rest ih =>
    by_cases hk0 : kv.1 = k0
    · simp only [List.map_cons]
      rw [if_pos hk0]
      simp only [plookup]
      by_cases hk : k = kv.1
      · exact absurd (hk.trans hk0) hne
      · rw [if_neg hk, if_neg hk]
        exact ih
    · simp only [List.map_cons]
      rw [if_neg hk0]
      simp only [plookup]
      by_cases hk : k = kv.1
      · rw [if_pos hk, if_pos hk]
      · rw [if_neg hk, if_neg hk]
        exact ih

theorem dinsert_pos {α : Type} (d : List (String × α)) (k : String) (v : α)
    (h : (d.any fun kv => decide (kv.1 = k)) = true) :
    dinsert d k v = d.map fun kv => if kv.1 = k then (kv.1, v) else kv := by
  unfold dinsert
  rw [if_pos h]

theorem dinsert_neg {α : Type} (d : List (String × α)) (k : String) (v : α)
    (h : (d.any fun kv => decide (kv.1 = k)) = false) :
    dinsert d k v = d ++ [(k, v)] := by
  unfold dinsert
  rw [if_neg (by simp [h])]

theorem plookup_dinsert_self {α : Type} (k : String) (v : α) (d : List (String × α)) :
    plookup k (dinsert d k v) = some v := by
  by_cases h : (d.any fun kv => decide (kv.1 = k)) = true
  · rw [dinsert_pos d k v h]
    exact plookup_map_replace k v d h
  · have h2 : (d.any fun kv => decide (kv.1 = k)) = false := Bool.eq_false_iff.mpr h
    rw [dinsert_neg d k v h2, plookup_append, plookup_eq_none (any_false_key_ne h2)]
    simp [plookup, Option.orElse]

theorem plookup_dinsert_other {α : Type} (k k0 : String) (v : α)
    (d : List (String × α)) (hne : k ≠ k0) :
    plookup k (dinsert d k0 v) = plookup k d := by
  by_cases h : (d.any fun kv => decide (kv.1 = k0)) = true
  · rw [dinsert_pos d k0 v h]
    exact plookup_map_other k k0 v d hne
  · have h2 : (d.any fun kv => decide (kv.1 = k0)) = false := Bool.eq_false_iff.mpr h
    rw [dinsert_neg d k0 v h2, plookup_append]
    cases hd : plookup k d with
    | none => simp [plookup, hne, Option.orElse]
    | some w => simp [Option.orElse]

theorem pkeys_dinsert {α : Type} (d : List (String × α)) (k0 : String) (v : α)
    (x : String) (h : x ∈ pkeys (dinsert d k0 v)) : x ∈ pkeys d ∨ x = k0 := by
  by_cases hc : (d.any fun kv => decide (kv.1 = k0)) = true
  · left
    rw [dinsert_pos d k0 v hc] at h
    have hk : pkeys (d.map fun kv => if kv.1 = k0 then (kv.1, v) else kv) = pkeys d := by
      simp only [pkeys, List.map_map]
      apply List.map_congr_left
      intro kv _
      by_cases hkv : kv.1 = k0
      · rw [Function.comp_apply, if_pos hkv]
      · rw [Function.comp_apply, if_neg hkv]
    rwa [hk] at h
  · have h2 : (d.any fun kv => decide (kv.1 = k0)) = false := Bool.eq_false_iff.mpr hc
    rw [dinsert_neg d k0 v h2] at h
    simp only [pkeys, List.map_append, List.mem_append] at h
    rcases h with h | h
    · exact Or.inl h
    · right
      simpa using h

theorem mem_foldl_dinsert {α : Type} (g : String → Bool) (items : List (String × α)) :
    ∀ (d : List (String × α)) (e : String × α),
      e ∈ items.foldl (fun d kv => if g kv.1 then dinsert d kv.1 kv.2 else d) d →
      e.1 ∈ pkeys d ∨ (e.1 ∈ pkeys items ∧ g e.1 = true) := by
  induction items with
  | nil =>
    intro d e he
    exact Or.inl (List.mem_map.mpr ⟨e, he, rfl⟩)
  | cons kv rest ih =>
    intro d e he
    simp only [List.foldl_cons] at he
    rcases ih (if g kv.1 then dinsert d kv.1 kv.2 else d) e he with h1 | h1
    · by_cases hg : g kv.1 = true
      · rw [if_pos hg] at h1
        rcases pkeys_dinsert d kv.1 kv.2 e.1 h1 with h2 | h2
        · exact Or.inl h2
        · refine Or.inr ⟨?_, by rw [h2]; exact hg⟩
          simp [pkeys, h2]
      · rw [if_neg hg] at h1
        exact Or.inl h1
    · exact Or.inr ⟨by simp [pkeys] at h1 ⊢; exact Or.inr h1.1, h1.2⟩

theorem plookup_foldl_not_mem {α : Type} (g : String → Bool)
    (items : List (String × α)) :
    ∀ (d : List (String × α)) (k : String), k ∉ pkeys items →
      plookup k (items.foldl (fun d kv => if g kv.1 then dinsert d kv.1 kv.2 else d) d)
        = plookup k d := by
  induction items with
  | nil =>
    intro d k _
    rfl
  | cons kv rest ih =>
    intro d k h
    have hk : k ≠ kv.1 := by
      intro he
      exact h (by simp [pkeys, he])
    have hrest : k ∉ pkeys rest := by
      intro hm
      exact h (by simp [pkeys] at hm ⊢; exact Or.inr hm)
    simp only [List.foldl_cons]
    rw [ih _ k hrest]
    by_cases hg : g kv.1 = true
    · rw [if_pos hg]
      exact plookup_dinsert_other k kv.1 kv.2 d hk
    · rw [if_neg hg]

theorem plookup_foldl_insert {α : Type} (g : String → Bool)
    (items : List (String × α)) :
    ∀ (d : List (String × α)) (k : String) (v : α), k ∈ pkeys items →
      (∀ kv ∈ items, kv.1 = k → kv.2 = v) → g k = true →
      plookup k (items.foldl (fun d kv => if g kv.1 then dinsert d kv.1 kv.2 else d) d)
        = some v := by
  induction items with
  | nil =>
    intro d k v h _ _
    simp [pkeys] at h
  | cons kv rest ih =>
    intro d k v hmem hval hg
    simp only [List.foldl_cons]
    by_cases hk : kv.1 = k
    · have hv : kv.2 = v := hval kv (List.mem_cons_self _ _) hk
      have hstep : (if g kv.1 then dinsert d kv.1 kv.2 else d) = dinsert d k v := by
        rw [hk, hv, if_pos hg]
      rw [hstep]
      by_cases hrm : k ∈ pkeys rest
      · exact ih (dinsert d k v) k v hrm
          (fun kv2 hm2 he2 => hval kv2 (List.mem_cons_of_mem _ hm2) he2) hg
      · rw [plookup_foldl_not_mem g rest _ k hrm]
        exact plookup_dinsert_self k v d
    · have hrm : k ∈ pkeys rest := by
        have : k = kv.1 ∨ k ∈ pkeys rest := by simpa [pkeys] using hmem
        rcases this with he | hm
        · exact absurd he.symm hk
        · exact hm
      exact ih _ k v hrm
        (fun kv2 hm2 he2 => hval kv2 (List.mem_cons_of_mem _ hm2) he2) hg

/-- C2: the field-collision policy of enrichment. For a record accepted by
`Logger.makeRecord` (whose native attribute keys are all reserved), the
structured handler never overwrites a native field or an extras field with a
context value: a native field keeps its value, a caller-supplied extras field
keeps its value (taking precedence over any context value of the same key),
and any extras key colliding with a native field would already have been
rejected at record creation. In the plaintext handler's rendered context, a
native key never appears at all, while an eligible extras key appears with
the caller's value, overriding a context entry of the same key. -/
theorem enrichment_collision_policy {α : Type}
    (natives extras ctxItems : List (String × α)) (ctx : String → Option α)
    (r : LogRecord α)
    (hmk : makeRecord natives extras = some r)
    (hres : ∀ kv ∈ natives, kv.1 ∈ RESERVED_ATTRS)
    (hnd : nodupKeys extras = true) :
    (∀ k v, plookup k natives = some v → structuredHandle ctx r k = some v)
    ∧ (∀ k v, plookup k extras = some v → structuredHandle ctx r k = some v)
    ∧ (∀ k, (plookup k natives).isSome → plookup k extras = Option.none)
    ∧ (∀ k, (plookup k natives).isSome →
        plookup k (plaintextCtx ctxItems r) = Option.none)
    ∧ (∀ k v, plookup k extras = some v → plaintextEligible k = true →
        plookup k (plaintextCtx ctxItems r) = some v) := by
  have hcheck : (extras.any fun kv =>
      decide (kv.1 = "message") || decide (kv.1 = "asctime")
        || (plookup kv.1 natives).isSome) = false := by
    by_cases hc : (extras.any fun kv =>
        decide (kv.1 = "message") || decide (kv.1 = "asctime")
          || (plookup kv.1 natives).isSome) = true
    · rw [makeRecord, if_pos hc] at hmk
      cases hmk
    · exact Bool.eq_false_iff.mpr hc
  have hr : r = ⟨natives, extras⟩ := by
    rw [makeRecord, if_neg (by simp [hcheck])] at hmk
    exact (Option.some.inj hmk).symm
  subst hr
  have hnc : ∀ kv ∈ extras, plookup kv.1 natives = Option.none := by
    intro kv hm
    cases hcc : plookup kv.1 natives with
    | none => rfl
    | some w =>
      have : (extras.any fun kv =>
          decide (kv.1 = "message") || decide (kv.1 = "asctime")
            || (plookup kv.1 natives).isSome) = true :=
        List.any_eq_true.mpr ⟨kv, hm, by simp [hcc]⟩
      rw [this] at hcheck
      cases hcheck
  have hext_none : ∀ k, (plookup k natives).isSome → plookup k extras = Option.none := by
    intro k hk
    cases hpe : plookup k extras with
    | none => rfl
    | some w =>
      have hmem := plookup_some_mem hpe
      have := hnc (k, w) hmem
      rw [this] at hk
      cases hk
  refine ⟨?_, ?_, hext_none, ?_, ?_⟩
  · intro k v h
    have hpe : plookup k extras = Option.none := hext_none k (by simp [h])
    simp [structuredHandle, LogRecord.attr, hpe, h, Option.orElse]
  · intro k v h
    simp [structuredHandle, LogRecord.attr, h, Option.orElse]
  · intro k hk
    cases hp : plookup k (plaintextCtx ctxItems ⟨natives, extras⟩) with
    | none => rfl
    | some w =>
      exfalso
      have hmem := plookup_some_mem hp
      have hkres : k ∈ RESERVED_ATTRS := by
        cases hn : plookup k natives with
        | none => rw [hn] at hk; cases hk
        | some w2 => exact hres (k, w2) (plookup_some_mem hn)
      rcases mem_foldl_dinsert plaintextEligible (natives ++ extras) _ _ hmem with
        h1 | h1
      · -- the key would have to come from the filtered context, but the record
        -- has the attribute, so the filter dropped it
        have hx : ∃ kv, (kv ∈ ctxItems ∧ ¬(LogRecord.hasattr ⟨natives, extras⟩ kv.1 = true))
            ∧ kv.1 = k := by
          simpa [pkeys, List.mem_filter] using h1
        obtain ⟨kv, ⟨_, hnat⟩, hkk⟩ := hx
        apply hnat
        rw [hkk]
        simp only [LogRecord.hasattr, LogRecord.attr]
        rw [hext_none k hk]
        simpa [Option.orElse] using hk
      · -- the key would have to be an eligible record attribute, but it is reserved
        have hfalse : plaintextEligible k = false := by
          have hc : RESERVED_ATTRS.contains k = true := by simpa using hkres
          rw [plaintextEligible, hc]
          rfl
        rw [h1.2] at hfalse
        cases hfalse
  · intro k v h helig
    have hmem : (k, v) ∈ extras := plookup_some_mem h
    have hnres : k ∉ RESERVED_ATTRS := by
      intro hk
      have hc : RESERVED_ATTRS.contains k = true := by simpa using hk
      rw [plaintextEligible, hc] at helig
      simp at helig
    have hkeys : k ∈ pkeys (natives ++ extras) := by
      simp only [pkeys, List.map_append, List.mem_append]
      exact Or.inr (List.mem_map.mpr ⟨(k, v), hmem, rfl⟩)
    have hval : ∀ kv ∈ natives ++ extras, kv.1 = k → kv.2 = v := by
      intro kv hm he
      rcases List.mem_append.mp hm with hN | hE
      · exact absurd (he ▸ hres kv hN) hnres
      · have h2 := plookup_of_mem_nodup hnd hE
        rw [he, h] at h2
        exact Option.some.inj h2.symm
    exact plookup_foldl_insert plaintextEligible (natives ++ extras) _ k v
      hkeys hval helig

/-- C2 (witness): a record with native fields `message`/`levelname` and the
caller extra `foo="bar"`, emitted while the context binds `foo="quux"`:
both renderers show `foo = "bar"` (extras beat context). -/
theorem enrichment_collision_policy_witness :
    makeRecord [("message", PVal.pstr "m"), ("levelname", PVal.pstr "INFO")]
        [("foo", PVal.pstr "bar")]
      = some ⟨[("message", PVal.pstr "m"), ("levelname", PVal.pstr "INFO")],
          [("foo", PVal.pstr "bar")]⟩
    ∧ structuredHandle
        (fun k => plookup k [("foo", PVal.pstr "quux"), ("trace_id", PVal.pint 1)])
        ⟨[("message", PVal.pstr "m"), ("levelname", PVal.pstr "INFO")],
          [("foo", PVal.pstr "bar")]⟩ "foo" = some (PVal.pstr "bar")
    ∧ plookup "foo"
        (plaintextCtx [("foo", PVal.pstr "quux"), ("trace_id", PVal.pint 1)]
          ⟨[("message", PVal.pstr "m"), ("levelname", PVal.pstr "INFO")],
            [("foo", PVal.pstr "bar")]⟩) = some (PVal.pstr "bar") :=
  ⟨rfl,
   (enrichment_collision_policy
      [("message", PVal.pstr "m"), ("levelname", PVal.pstr "INFO")]
      [("foo", PVal.pstr "bar")]
      [("foo", PVal.pstr "quux"), ("trace_id", PVal.pint 1)]
      (fun k => plookup k [("foo", PVal.pstr "quux"), ("trace_id", PVal.pint 1)])
      ⟨[("message", PVal.pstr "m"), ("levelname", PVal.pstr "INFO")],
        [("foo", PVal.pstr "bar")]⟩
      rfl (by decide) (by decide)).2.1 "foo" (PVal.pstr "bar") rfl,
   (enrichment_collision_policy
      [("message", PVal.pstr "m"), ("levelname", PVal.pstr "INFO")]
      [("foo", PVal.pstr "bar")]
      [("foo", PVal.pstr "quux"), ("trace_id", PVal.pint 1)]
      (fun k => plookup k [("foo", PVal.pstr "quux"), ("trace_id", PVal.pint 1)])
      ⟨[("message", PVal.pstr "m"), ("levelname", PVal.pstr "INFO")],
        [("foo", PVal.pstr "bar")]⟩
      rfl (by decide) (by decide)).2.2.2.2 "foo" (PVal.pstr "bar") rfl (by decide)⟩

theorem mem_insertPair (p x : String × String) (l : List (String × String)) :
    x ∈ insertPair p l ↔ x = p ∨ x ∈ l := by
  induction l with
  | nil => simp [insertPair]
  | cons q rest ih =>
    by_cases h : p.1 ≤ q.1
    · simp only [insertPair, if_pos h]
      simp [or_comm, or_assoc, or_left_comm]
    · simp only [insertPair, if_neg h]
      simp [ih, or_comm, or_assoc, or_left_comm]

theorem sorted_insertPair (p : String × String) (l : List (String × String))
    (h : l.Sorted fun x y : String × String => x.1 ≤ y.1) :
    (insertPair p l).Sorted fun x y : String × String => x.1 ≤ y.1 := by
  induction l with
  | nil => simp [insertPair]
  | cons q rest ih =>
    rw [List.sorted_cons] at h
    obtain ⟨hq, hrest⟩ := h
    by_cases hle : p.1 ≤ q.1
    · simp only [insertPair, if_pos hle]
      rw [List.sorted_cons]
      refine ⟨?_, ?_⟩
      · intro b hb
        rcases List.mem_cons.mp hb with hb | hb
        · rw [hb]; exact hle
        · exact le_trans hle (hq b hb)
      · rw [List.sorted_cons]
        exact ⟨hq, hrest⟩
    · simp only [insertPair, if_neg hle]
      rw [List.sorted_cons]
      refine ⟨?_, ih hrest⟩
      intro b hb
      rcases (mem_insertPair p b rest).mp hb with hb | hb
      · rw [hb]
        exact le_of_not_le hle
      · exact hq b hb

theorem perm_insertPair (p : String × String) (l : List (String × String)) :
    List.Perm (insertPair p l) (p :: l) := by
  induction l with
  | nil => rfl
  | cons q rest ih =>
    by_cases h : p.1 ≤ q.1
    · simp [insertPair, h]
    · simp only [insertPair, if_neg h]
      exact (ih.cons q).trans (List.Perm.swap p q rest)

theorem sorted_sortPairs (l : List (String × String)) :
    (sortPairs l).Sorted fun x y : String × String => x.1 ≤ y.1 := by
  induction l with
  | nil => simp [sortPairs]
  | cons p rest ih => exact sorted_insertPair p (sortPairs rest) ih

theorem perm_sortPairs (l : List (String × String)) : List.Perm (sortPairs l) l := by
  induction l with
  | nil => rfl
  | cons p rest ih =>
    exact (perm_insertPair p (sortPairs rest)).trans (ih.cons p)

theorem keys_dumpsPairs (l : List (String × JValue)) :
    (dumpsPairs l).map Prod.fst = l.map Prod.fst := by
  induction l with
  | nil => rfl
  | cons kv rest ih =>
    obtain ⟨k, v⟩ := kv
    simp [dumpsPairs, ih]

theorem keys_toJValuePairs (l : List (String × PVal)) :
    (toJValuePairs l).map Prod.fst = l.map Prod.fst := by
  induction l with
  | nil => rfl
  | cons kv rest ih =>
    obtain ⟨k, v⟩ := kv
    simp [toJValuePairs, ih]

/-- C9: the plaintext line is the fixed prefix followed by the context suffix;
the suffix is exactly `" [k1=v1, k2=v2, ...]"` over the merged context and
record entries, with each value rendered by `plain_repr` (JSON), and is the
empty string exactly when the merged set is empty; and the JSON rendering of
any embedded dict emits its entries in key-sorted order while keeping exactly
the original keys. -/
theorem plaintext_suffix_spec (ctxItems : List (String × PVal)) (r : LogRecord PVal)
    (a lvl fn : String) (ln : Nat) (fnName : String) (pid tid : Nat) (msg : String) :
    (plaintextCtx ctxItems r = [] → record_context (plaintextCtx ctxItems r) = "")
    ∧ (plaintextCtx ctxItems r ≠ [] →
        record_context (plaintextCtx ctxItems r)
          = " [" ++ joinComma ((plaintextCtx ctxItems r).map
              fun kv => kv.1 ++ "=" ++ plain_repr kv.2) ++ "]")
    ∧ (∃ pre, formatLine a lvl fn ln fnName pid tid msg
          (record_context (plaintextCtx ctxItems r))
        = pre ++ record_context (plaintextCtx ctxItems r))
    ∧ (∀ kvs : List (String × PVal), ∃ ps : List (String × String),
        plain_repr (PVal.pdict kvs) = "\x7b" ++ renderPairs ps ++ "\x7d"
        ∧ ps.Sorted (fun x y : String × String => x.1 ≤ y.1)
        ∧ List.Perm (ps.map Prod.fst) (kvs.map Prod.fst)) := by
  refine ⟨?_, ?_, ⟨_, rfl⟩, ?_⟩
  · intro h
    simp [record_context, h]
  · intro h
    rw [record_context, if_neg (by simpa [List.isEmpty_iff] using h)]
  · intro kvs
    refine ⟨sortPairs (dumpsPairs (toJValuePairs kvs)), rfl,
      sorted_sortPairs _, ?_⟩
    have hperm := (perm_sortPairs (dumpsPairs (toJValuePairs kvs))).map Prod.fst
    rw [keys_dumpsPairs, keys_toJValuePairs] at hperm
    exact hperm

/-- C9 (witness): one context entry whose value is a dict with unsorted keys.
The merged context evaluates to exactly that entry, it is non-empty, and so
the rendered `record.context` suffix carries the bracketed `k=v` form. -/
theorem plaintext_suffix_spec_witness :
    plaintextCtx [("b", PVal.pdict [("z", PVal.pint 1), ("a", PVal.pstr "x")])]
        (⟨[("message", PVal.pstr "m")], []⟩ : LogRecord PVal)
      = [("b", PVal.pdict [("z", PVal.pint 1), ("a", PVal.pstr "x")])]
    ∧ record_context
        (plaintextCtx [("b", PVal.pdict [("z", PVal.pint 1), ("a", PVal.pstr "x")])]
          (⟨[("message", PVal.pstr "m")], []⟩ : LogRecord PVal))
      = " [" ++ joinComma
          ((plaintextCtx [("b", PVal.pdict [("z", PVal.pint 1), ("a", PVal.pstr "x")])]
              (⟨[("message", PVal.pstr "m")], []⟩ : LogRecord PVal)).map
            fun kv => kv.1 ++ "=" ++ plain_repr kv.2) ++ "]"
 :=
  ⟨rfl,
   (plaintext_suffix_spec
      [("b", PVal.pdict [("z", PVal.pint 1), ("a", PVal.pstr "x")])]
      (⟨[("message", PVal.pstr "m")], []⟩ : LogRecord PVal)
      "2020-01-01 10:00:00,000" "INFO" "app.py" 1 "main" 2 3 "hi").2.1
     (by
       intro h
       exact List.cons_ne_nil _ _
         ((rfl : plaintextCtx
             [("b", PVal.pdict [("z", PVal.pint 1), ("a", PVal.pstr "x")])]
             (⟨[("message", PVal.pstr "m")], []⟩ : LogRecord PVal)
           = [("b", PVal.pdict [("z", PVal.pint 1), ("a", PVal.pstr "x")])]).symm.trans h))⟩
